import Mathlib

/-!
Verification of the programming-logic-evaluation scheduling core.

The four TypeScript entry points are embedded as pure Lean functions:

* `WithBuffer.isSlotAvailableWithBuffer`
  (src/3-is-slot-available-with-buffer/is-slot-available-with-buffer.ts)
* `WithEvents.isSlotAvailableWithEvents` (the unbuffered validator variant)
* `Enum.listAvailable30MinuteSlots`
  (src/4-list-available-30-minute-slots/list-available-30-minute-slots.ts)
* `Multi.listAvailable30MinuteSlotsMultiplePerson` and its helper
  `Multi.intersectRanges` (the multi-attendee enumerator)

Modelling conventions:

* A JavaScript Date is its epoch-millisecond value, an `Int`.
  Comparison of Date objects compares these values.
* `getUTCDay` of a timestamp: the UTC epoch day count is the floor
  division by 86400000, and 1970-01-01 was a Thursday (weekday 4).
* `Date.UTC(getUTCFullYear t, getUTCMonth t, getUTCDate t, h, mi)` equals
  the start of the UTC day of `t` plus `h` hours and `mi` minutes; this
  also holds for hour arguments of 24 and above, which Date.UTC
  normalises into following days.  `setUTCHours(h, mi, 0, 0)` on a copy
  of `t` is the same value.  The buffered validator uses local-time
  `setHours`; following the specification, the runtime clock is UTC, so
  it is modelled identically.
* Code paths that dereference `undefined` (a missing pair end inside
  `intersectRanges`, `reduce` of an empty array, a too-short `range` in
  the unbuffered validator) raise a TypeError at runtime; fallible
  functions therefore return `Except String`.
* JavaScript while loops are embedded as structural recursion on a fuel
  argument whose initial value provably dominates the number of
  iterations, so the zero-fuel branch is unreachable and the embedding
  is exact.
-/

/-- A wall-clock time of day `{hours, minutes}`; no date component. -/
structure TimeOfDay where
  hours : Nat
  minutes : Nat
deriving DecidableEq, Repr

/-- Buffer padding in minutes before and after an event. -/
structure EventBuffer where
  before : Nat
  after : Nat
deriving DecidableEq, Repr

/-- A booked calendar event with optional buffer. -/
structure CalendarEvent where
  start : Int
  «end» : Int
  buffer : Option EventBuffer
deriving DecidableEq, Repr

/-- A candidate or returned booking slot. -/
structure CalendarSlot where
  start : Int
  durationM : Nat
deriving DecidableEq, Repr

/-- One weekly availability entry: a weekday and its time-of-day list. -/
structure AvailabilityWindow where
  weekday : Nat
  range : List TimeOfDay
deriving DecidableEq, Repr

/-- The full recurring weekly template for one person. -/
structure CalendarAvailability where
  «include» : List AvailabilityWindow
deriving DecidableEq, Repr

/-- Epoch-day index of a timestamp: floor division by 86400000 ms. -/
def dayIndex (t : Int) : Int := Int.fdiv t 86400000

/-- Millisecond timestamp of the start of the UTC day containing t. -/
def dayStart (t : Int) : Int := dayIndex t * 86400000

/-- JavaScript Date.prototype.getUTCDay: 0 = Sunday .. 6 = Saturday.
1970-01-01 (epoch day 0) was a Thursday, weekday 4. -/
def getUTCDay (t : Int) : Nat := ((dayIndex t + 4) % 7).toNat

/-- Minutes since midnight denoted by a TimeOfDay value. -/
def minutesOfDay (r : TimeOfDay) : Nat := r.hours * 60 + r.minutes

/-- The instant on the UTC day of `t` at the given time of day
(`setUTCHours(h, m, 0, 0)` applied to a copy of `t`); hour values of 24
and above normalise into following days, matching JavaScript. -/
def atTimeOfDay (t : Int) (r : TimeOfDay) : Int :=
  dayStart t + (minutesOfDay r : Int) * 60000

/-- Buffer minutes before an event (`event.buffer?.before || 0`). -/
def bufBefore (e : CalendarEvent) : Nat := (e.buffer.map (·.before)).getD 0

/-- Buffer minutes after an event (`event.buffer?.after || 0`). -/
def bufAfter (e : CalendarEvent) : Nat := (e.buffer.map (·.after)).getD 0

namespace WithBuffer

/-- calculateSlotEndTime: start plus durationM minutes. -/
def calculateSlotEndTime (start : Int) (durationM : Nat) : Int :=
  start + (durationM : Int) * 60000

/-- calculateEventStartWithBuffer: event start minus the before-buffer. -/
def calculateEventStartWithBuffer (e : CalendarEvent) : Int :=
  e.start - (bufBefore e : Int) * 60000

/-- calculateEventEndWithBuffer: event end plus the after-buffer. -/
def calculateEventEndWithBuffer (e : CalendarEvent) : Int :=
  e.«end» + (bufAfter e : Int) * 60000

/-- isSlotInRange: for some element of the range list, the slot lies
between that element's instant on the slot's day and that instant plus
24 hours (the source computes `rangeEnd` as `rangeStart` plus one day). -/
def isSlotInRange (slotStart slotEnd : Int) (ranges : List TimeOfDay) : Bool :=
  ranges.any fun range =>
    let rangeStart := atTimeOfDay slotStart range
    let rangeEnd := rangeStart + 24 * 60 * 60 * 1000
    decide (rangeStart ≤ slotStart ∧ slotEnd ≤ rangeEnd)

/-- isSlotWithinAvailability (buffered variant): some include entry has
the slot's UTC weekday and passes isSlotInRange. -/
def isSlotWithinAvailability (slotStart slotEnd : Int)
    (availability : CalendarAvailability) : Bool :=
  availability.include.any fun entry =>
    entry.weekday == getUTCDay slotStart
      && isSlotInRange slotStart slotEnd entry.range

/-- Per-event conflict test of the buffered validator: the slot overlaps
the buffered event interval under the half-open test. -/
def conflictsWithEvent (slotStart slotEnd : Int) (e : CalendarEvent) : Bool :=
  decide (slotStart < calculateEventEndWithBuffer e
    ∧ slotEnd > calculateEventStartWithBuffer e)

/-- isSlotConflictedWithEvents (buffered variant). -/
def isSlotConflictedWithEvents (slotStart slotEnd : Int)
    (events : List CalendarEvent) : Bool :=
  events.any (conflictsWithEvent slotStart slotEnd)

/-- isSlotAvailableWithBuffer: within availability and free of buffered
event conflicts. -/
def isSlotAvailableWithBuffer (availability : CalendarAvailability)
    (events : List CalendarEvent) (slot : CalendarSlot) : Bool :=
  let slotStart := slot.start
  let slotEnd := calculateSlotEndTime slotStart slot.durationM
  if !isSlotWithinAvailability slotStart slotEnd availability then
    false
  else if isSlotConflictedWithEvents slotStart slotEnd events then
    false
  else
    true

end WithBuffer

namespace WithEvents

/-- isSlotWithinAvailability (unbuffered variant): find the entry of the
slot's UTC weekday, then compare against the instants built from the
first two time-of-day values.  Reading `range[0].hours` or
`range[1].hours` on a too-short list raises a TypeError. -/
def isSlotWithinAvailability (slotStart slotEnd : Int)
    (availability : CalendarAvailability) : Except String Bool :=
  match availability.include.find? (fun a => a.weekday == getUTCDay slotStart) with
  | none => .ok false
  | some availabilityForDay =>
    match availabilityForDay.range.get? 0, availabilityForDay.range.get? 1 with
    | some startRange, some endRange =>
      let availableStart := atTimeOfDay slotStart startRange
      let availableEnd := atTimeOfDay slotStart endRange
      .ok (decide (availableStart ≤ slotStart ∧ slotEnd ≤ availableEnd))
    | _, _ => .error "TypeError"

/-- Per-event conflict test of the unbuffered validator (the buffer
field is never read). -/
def conflictsWithEvent (slotStart slotEnd : Int) (e : CalendarEvent) : Bool :=
  decide (slotStart < e.«end» ∧ slotEnd > e.start)

/-- isSlotConflictedWithEvents (unbuffered variant). -/
def isSlotConflictedWithEvents (slotStart slotEnd : Int)
    (events : List CalendarEvent) : Bool :=
  events.any (conflictsWithEvent slotStart slotEnd)

/-- isSlotAvailableWithEvents: within availability (first pair only) and
free of unbuffered event conflicts. -/
def isSlotAvailableWithEvents (availability : CalendarAvailability)
    (events : List CalendarEvent) (slot : CalendarSlot) : Except String Bool := do
  let slotStart := slot.start
  let slotEnd := WithBuffer.calculateSlotEndTime slotStart slot.durationM
  let within ← isSlotWithinAvailability slotStart slotEnd availability
  if !within then
    return false
  else if isSlotConflictedWithEvents slotStart slotEnd events then
    return false
  else
    return true

end WithEvents

namespace Enum

/-- Per-event conflict test of the single-person enumerator: the
three-way union of (slot starts inside event), (slot ends inside event),
(slot contains event), on the buffered event interval. -/
def conflictsWithEvent (slotStart slotEnd : Int) (e : CalendarEvent) : Bool :=
  let eventStart := e.start - (bufBefore e : Int) * 60 * 1000
  let eventEnd := e.«end» + (bufAfter e : Int) * 60 * 1000
  decide ((eventStart ≤ slotStart ∧ slotStart < eventEnd)
    ∨ (slotEnd > eventStart ∧ slotEnd ≤ eventEnd)
    ∨ (slotStart ≤ eventStart ∧ slotEnd ≥ eventEnd))

/-- The inner while loop of listAvailable30MinuteSlots: walk 30-minute
sub-slots from `slotStart` while below `rangeEndTime`; break the walk
when a sub-slot leaves `[startRange, endRange]`; emit the sub-slot when
it conflicts with no event.  The fuel dominates the iteration count. -/
def walk30 (startRange endRange rangeEndTime : Int)
    (events : List CalendarEvent) : Nat → Int → List CalendarSlot
  | 0, _ => []
  | fuel + 1, slotStart =>
    if slotStart < rangeEndTime then
      let slotEnd := slotStart + 30 * 60 * 1000
      if slotStart < startRange ∨ slotEnd > endRange then
        []
      else
        (if events.any (conflictsWithEvent slotStart slotEnd) then []
          else [⟨slotStart, 30⟩])
          ++ walk30 startRange endRange rangeEndTime events fuel slotEnd
    else []

/-- The body of `dayAvailability.range.forEach`: the block start is the
entry's time of day on the current day, the block end adds 30 to the
hours field (Date.UTC normalises hour overflow into following days), and
the walk needs exactly 60 iterations to exhaust the 30-hour block. -/
def processRangeEntry (currentDate startRange endRange : Int)
    (events : List CalendarEvent) (range : TimeOfDay) : List CalendarSlot :=
  let currentSlotStart := atTimeOfDay currentDate range
  let rangeEndTime :=
    atTimeOfDay currentDate ⟨range.hours + 30, range.minutes⟩
  walk30 startRange endRange rangeEndTime events 60 currentSlotStart

/-- One iteration of the day loop: look up the availability entry of the
current UTC weekday and run the per-entry walk over its range list. -/
def processDay (availability : CalendarAvailability)
    (events : List CalendarEvent)
    (currentDate startRange endRange : Int) : List CalendarSlot :=
  match availability.include.find? (fun day => day.weekday == getUTCDay currentDate) with
  | none => []
  | some dayAvailability =>
    dayAvailability.range.flatMap (processRangeEntry currentDate startRange endRange events)

/-- The outer for loop: step one UTC day (86400000 ms) at a time while
`currentDate ≤ endRange`.  The fuel dominates the iteration count. -/
def dayLoop (availability : CalendarAvailability)
    (events : List CalendarEvent)
    (startRange endRange : Int) : Nat → Int → List CalendarSlot
  | 0, _ => []
  | fuel + 1, currentDate =>
    if currentDate ≤ endRange then
      processDay availability events currentDate startRange endRange
        ++ dayLoop availability events startRange endRange fuel (currentDate + 86400000)
    else []

/-- listAvailable30MinuteSlots: enumerate conflict-free 30-minute slots
over the day range. -/
def listAvailable30MinuteSlots (availability : CalendarAvailability)
    (events : List CalendarEvent) (startRange endRange : Int) : List CalendarSlot :=
  dayLoop availability events startRange endRange
    ((endRange - startRange).toNat + 1) startRange

end Enum

namespace Multi

/-- One attendee: an availability template and booked events. -/
structure Attendee where
  availability : CalendarAvailability
  events : List CalendarEvent
deriving DecidableEq, Repr

/-- The two-pointer loop of intersectRanges over indices i and j.  When
both indices are in bounds, the source reads the pair ends at i+1 and
j+1; a missing pair end is an undefined dereference, hence a TypeError.
Comparisons are made in minutes since midnight; the emitted values are
the original TimeOfDay objects.  The fuel dominates the iteration
count. -/
def intersectGo (rangeA rangeB : List TimeOfDay) :
    Nat → Nat → Nat → Except String (List TimeOfDay)
  | 0, _, _ => .ok []
  | fuel + 1, i, j =>
    if i < rangeA.length ∧ j < rangeB.length then
      match rangeA.get? i, rangeA.get? (i + 1), rangeB.get? j, rangeB.get? (j + 1) with
      | some startA, some endA, some startB, some endB =>
        let maxStart :=
          if minutesOfDay startA > minutesOfDay startB then startA else startB
        let minEnd :=
          if minutesOfDay endA < minutesOfDay endB then endA else endB
        let emitted :=
          if minutesOfDay maxStart < minutesOfDay minEnd then [maxStart, minEnd] else []
        let next :=
          if minutesOfDay endA < minutesOfDay endB then
            intersectGo rangeA rangeB fuel (i + 2) j
          else
            intersectGo rangeA rangeB fuel i (j + 2)
        (fun rest => emitted ++ rest) <$> next
      | _, _, _, _ => .error "TypeError"
    else .ok []

/-- intersectRanges: two-pointer intersection of two pair-sequences. -/
def intersectRanges (rangeA rangeB : List TimeOfDay) :
    Except String (List TimeOfDay) :=
  intersectGo rangeA rangeB (rangeA.length + rangeB.length + 1) 0 0

/-- Per-event availability test of the multi-person enumerator: the slot
must end before the buffered start or begin after the buffered end. -/
def slotClearsEvent (slotStart slotEnd : Int) (e : CalendarEvent) : Bool :=
  let eventStart := e.start - (bufBefore e : Int) * 60 * 1000
  let eventEnd := e.«end» + (bufAfter e : Int) * 60 * 1000
  decide (slotEnd ≤ eventStart ∨ slotStart ≥ eventEnd)

/-- The inner while loop of the multi-person enumerator: walk 30-minute
sub-slots while the start is below both the pair end instant and
endRange; emit when every event of every attendee is cleared.  The fuel
dominates the iteration count. -/
def multiWalk (endRange rangeEndTime : Int) (attendees : List Attendee) :
    Nat → Int → List CalendarSlot
  | 0, _ => []
  | fuel + 1, currentSlotStart =>
    if currentSlotStart < rangeEndTime ∧ currentSlotStart < endRange then
      let currentSlotEnd := currentSlotStart + 30 * 60 * 1000
      (if attendees.all (fun a => a.events.all (slotClearsEvent currentSlotStart currentSlotEnd))
        then [⟨currentSlotStart, 30⟩] else [])
        ++ multiWalk endRange rangeEndTime attendees fuel currentSlotEnd
    else []

/-- Split a flat list into consecutive pairs, dropping an odd leftover;
this is the `for (i = 0; i < length - 1; i += 2)` indexing of the
common-range walk, which never reads out of bounds. -/
def toPairs : List TimeOfDay → List (TimeOfDay × TimeOfDay)
  | a :: b :: rest => (a, b) :: toPairs rest
  | _ => []

/-- Walk one (start, end) pair of the day's common range. -/
def processPair (currentDate endRange : Int) (attendees : List Attendee)
    (p : TimeOfDay × TimeOfDay) : List CalendarSlot :=
  let currentSlotStart := atTimeOfDay currentDate p.1
  let rangeEndTime := atTimeOfDay currentDate p.2
  multiWalk endRange rangeEndTime attendees
    ((rangeEndTime - currentSlotStart).toNat + 1) currentSlotStart

/-- One iteration of the multi-person day loop.  Collect each attendee's
range for the current weekday (`map` + `filter(Boolean)`); skip the day
unless every attendee has one; fold the ranges through intersectRanges
(`reduce` without an initial value throws on an empty array and
otherwise always takes the intersect branch, since an array is truthy);
then walk each resulting pair. -/
def processDayMulti (attendees : List Attendee)
    (currentDate endRange : Int) : Except String (List CalendarSlot) := do
  let currentWeekday := getUTCDay currentDate
  let commonAvailableRanges := attendees.filterMap fun a =>
    (a.availability.include.find? (fun day => day.weekday == currentWeekday)).map (·.range)
  if commonAvailableRanges.length ≠ attendees.length then
    return []
  else
    match commonAvailableRanges with
    | [] => .error "TypeError: Reduce of empty array with no initial value"
    | first :: rest =>
      let commonRange ← rest.foldlM intersectRanges first
      return (toPairs commonRange).flatMap (processPair currentDate endRange attendees)

/-- The outer for loop of the multi-person enumerator. -/
def dayLoopMulti (attendees : List Attendee) (endRange : Int) :
    Nat → Int → Except String (List CalendarSlot)
  | 0, _ => .ok []
  | fuel + 1, currentDate =>
    if currentDate ≤ endRange then do
      let here ← processDayMulti attendees currentDate endRange
      let rest ← dayLoopMulti attendees endRange fuel (currentDate + 86400000)
      return here ++ rest
    else .ok []

/-- listAvailable30MinuteSlotsMultiplePerson: intersect the attendees'
daily availability and enumerate slots clearing all buffered events. -/
def listAvailable30MinuteSlotsMultiplePerson (attendees : List Attendee)
    (startRange endRange : Int) : Except String (List CalendarSlot) :=
  dayLoopMulti attendees endRange ((endRange - startRange).toNat + 1) startRange

end Multi

/-- Pointwise ordering of events used for buffer monotonicity: same
start and end, buffers at most those of the second event. -/
def EventLE (e e2 : CalendarEvent) : Prop :=
  e.start = e2.start ∧ e.«end» = e2.«end» ∧
    bufBefore e ≤ bufBefore e2 ∧ bufAfter e ≤ bufAfter e2

/-- Pointwise EventLE on event lists. -/
def EventsLE : List CalendarEvent → List CalendarEvent → Prop :=
  List.Forall₂ EventLE

/-- Pointwise ordering of attendees: identical availability, events
related by EventsLE. -/
def AttendeesLE : List Multi.Attendee → List Multi.Attendee → Prop :=
  List.Forall₂ fun a a2 => a.availability = a2.availability ∧ EventsLE a.events a2.events

/-- Every availability range list of every attendee has even length. -/
def EvenRangesAttendees (attendees : List Multi.Attendee) : Prop :=
  ∀ a ∈ attendees, ∀ w ∈ a.availability.include, w.range.length % 2 = 0

/-- Minute denotation of the consecutive pairs of a pair-sequence. -/
def minutePairs (l : List TimeOfDay) : List (Nat × Nat) :=
  (Multi.toPairs l).map fun p => (minutesOfDay p.1, minutesOfDay p.2)

/-- A valid pair-sequence: even length, each pair ascending, pairs
non-overlapping and sorted by start time. -/
def ValidPairSeq (l : List TimeOfDay) : Prop :=
  l.length % 2 = 0 ∧
  List.Chain' (fun p q => p.2 ≤ q.1) (minutePairs l) ∧
  ∀ p ∈ minutePairs l, p.1 < p.2

/-- The overlaps of the pairs of two pair-sequences, in minute
denotation: the pairs an ideal intersection would contain. -/
def overlapPairs (A B : List TimeOfDay) (p : Nat × Nat) : Prop :=
  ∃ a ∈ minutePairs A, ∃ b ∈ minutePairs B,
    max a.1 b.1 < min a.2 b.2 ∧ p = (max a.1 b.1, min a.2 b.2)

instance {ε α : Type} [DecidableEq ε] [DecidableEq α] : DecidableEq (Except ε α) :=
  fun x y =>
    match x, y with
    | .ok a, .ok b =>
      if h : a = b then .isTrue (by rw [h]) else .isFalse (by simp [h])
    | .error a, .error b =>
      if h : a = b then .isTrue (by rw [h]) else .isFalse (by simp [h])
    | .ok _, .error _ => .isFalse (by simp)
    | .error _, .ok _ => .isFalse (by simp)

/-- C1: the per-entry block of listAvailable30MinuteSlots is claimed to
end 30 minutes after the entry instant; in fact the source adds 30 to
the hours field, so on Sunday 1970-01-04 with entry 09:00 (instant
291600000) and an 11:00 range end, the walk emits the slot starting
09:30 (293400000), whose end lies beyond the claimed 30-minute block
end 09:30. -/
theorem c1_counterexample :
    (⟨293400000, 30⟩ : CalendarSlot) ∈
      Enum.processRangeEntry 259200000 259200000 298800000 [] ⟨9, 0⟩
    ∧ atTimeOfDay 259200000 ⟨9, 0⟩ = 291600000
    ∧ ¬ ((293400000 : Int) + 30 * 60000 ≤ 291600000 + 30 * 60000) := by
  refine ⟨by decide, by decide, by decide⟩

/-- C2: containment fails: the 30-hour per-entry block lets the
enumerator emit a slot on the UTC day after the processed day.  With
availability only on Sunday at 23:00 and a range from Sunday 23:00 to
Monday 00:30, the slot starting Monday 00:00 (345600000) is returned,
yet the validator rejects it because Monday has no availability
entry. -/
theorem c2_counterexample :
    (⟨345600000, 30⟩ : CalendarSlot) ∈
      Enum.listAvailable30MinuteSlots ⟨[⟨0, [⟨23, 0⟩]⟩]⟩ [] 342000000 347400000
    ∧ WithBuffer.isSlotAvailableWithBuffer ⟨[⟨0, [⟨23, 0⟩]⟩]⟩ []
        ⟨345600000, 30⟩ = false := by
  refine ⟨by decide, by decide⟩

/-- C3: the buffered validator does not bound the slot by the first
pair: with availability Sunday 09:00 to 10:00 it accepts the slot
11:00 to 11:30 (start 298800000), whose end exceeds the instant of the
second time-of-day value (10:00, i.e. 295200000), because
isSlotInRange tests every range element against a 24-hour window. -/
theorem c3_counterexample :
    WithBuffer.isSlotAvailableWithBuffer ⟨[⟨0, [⟨9, 0⟩, ⟨10, 0⟩]⟩]⟩ []
        ⟨298800000, 30⟩ = true
    ∧ ¬ (WithBuffer.calculateSlotEndTime 298800000 30 ≤
          atTimeOfDay 298800000 ⟨10, 0⟩) := by
  refine ⟨by decide, by decide⟩

/-- C4: the output of listAvailable30MinuteSlots is not sorted by start
time: with availability Sunday [09:00, 10:00] over Sunday 00:00 to
11:00, the walk of the 09:00 entry reaches 10:30 before the walk of the
10:00 entry restarts at 10:00, so positions 3 and 4 of the output are
out of order. -/
theorem c4_counterexample :
    (Enum.listAvailable30MinuteSlots ⟨[⟨0, [⟨9, 0⟩, ⟨10, 0⟩]⟩]⟩ []
        259200000 298800000).get? 3 = some ⟨297000000, 30⟩
    ∧ (Enum.listAvailable30MinuteSlots ⟨[⟨0, [⟨9, 0⟩, ⟨10, 0⟩]⟩]⟩ []
        259200000 298800000).get? 4 = some ⟨295200000, 30⟩
    ∧ (295200000 : Int) < 297000000 := by
  refine ⟨by decide, by decide, by decide⟩

/-- C5: two data-shape problems do raise: intersectRanges dereferences
the missing pair end of an odd-length list, and an empty attendee list
reaches reduce with no initial value on an empty array; both are
modelled as error results. -/
theorem c5_counterexample :
    (Multi.intersectRanges [⟨9, 0⟩] [⟨9, 0⟩, ⟨10, 0⟩]).isOk = false
    ∧ (Multi.listAvailable30MinuteSlotsMultiplePerson [] 259200000 262800000).isOk
        = false := by
  refine ⟨by decide, by decide⟩

/-- C10: the multi-person enumerator does not clip to the requested
range: with one attendee free Sunday 09:00 to 11:00 and the range
Sunday 10:00 to 11:00 it returns a slot starting 09:00 (291600000),
before the range start; with the range Sunday 00:30 to 10:15 it
returns the slot starting 10:00 (295200000), whose end 10:30 exceeds
the range end. -/
theorem c10_multi_no_range_clip :
    Multi.listAvailable30MinuteSlotsMultiplePerson
        [⟨⟨[⟨0, [⟨9, 0⟩, ⟨11, 0⟩]⟩]⟩, []⟩] 295200000 298800000 =
      .ok [⟨291600000, 30⟩, ⟨293400000, 30⟩, ⟨295200000, 30⟩, ⟨297000000, 30⟩]
    ∧ (291600000 : Int) < 295200000
    ∧ Multi.listAvailable30MinuteSlotsMultiplePerson
        [⟨⟨[⟨0, [⟨9, 0⟩, ⟨11, 0⟩]⟩]⟩, []⟩] 261000000 296100000 =
      .ok [⟨291600000, 30⟩, ⟨293400000, 30⟩, ⟨295200000, 30⟩]
    ∧ ¬ ((295200000 : Int) + 30 * 60000 ≤ 296100000) := by
  refine ⟨by decide, by decide, by decide, by decide⟩

theorem walk30_mem {startRange endRange rangeEndTime : Int}
    {events : List CalendarEvent} {fuel : Nat} {cur : Int} {s : CalendarSlot}
    (h : s ∈ Enum.walk30 startRange endRange rangeEndTime events fuel cur) :
    cur ≤ s.start ∧ s.start < rangeEndTime ∧ startRange ≤ s.start ∧
      s.start + 30 * 60 * 1000 ≤ endRange ∧ s.durationM = 30 ∧
      events.any (Enum.conflictsWithEvent s.start (s.start + 30 * 60 * 1000)) = false := by
  induction fuel generalizing cur with
  | zero => simp [Enum.walk30] at h
  | succ fuel ih =>
    simp only [Enum.walk30] at h
    split at h
    · split at h
      · simp at h
      · rename_i h1 h2
        push_neg at h2
        rcases List.mem_append.1 h with h3 | h3
        · split at h3
          · simp at h3
          · rename_i hc
            simp only [List.mem_singleton] at h3
            subst h3
            exact ⟨le_refl _, h1, h2.1, h2.2, rfl, by simpa using hc⟩
        · obtain ⟨ha, hb, hc, hd, he, hf⟩ := ih h3
          exact ⟨by linarith, hb, hc, hd, he, hf⟩
    · simp at h

theorem walk30_pairwise {startRange endRange rangeEndTime : Int}
    {events : List CalendarEvent} (fuel : Nat) (cur : Int) :
    List.Pairwise (fun a b : CalendarSlot => a.start < b.start)
      (Enum.walk30 startRange endRange rangeEndTime events fuel cur) := by
  induction fuel generalizing cur with
  | zero => simp [Enum.walk30]
  | succ fuel ih =>
    simp only [Enum.walk30]
    split
    · split
      · simp
      · refine List.pairwise_append.2 ⟨?_, ih _, ?_⟩
        · split <;> simp
        · intro a ha b hb
          have hbs := (walk30_mem hb).1
          split at ha
          · simp at ha
          · simp only [List.mem_singleton] at ha
            subst ha
            simp only []
            linarith
    · simp

/-- C1 (amended): each range entry of a processed day defines one block
whose start is the entry's time of day on that day, but whose end is 30
HOURS later (the source adds 30 to the hours field); every slot emitted
by the walk of that entry starts inside that 30-hour block and has
duration 30 minutes. -/
theorem c1_amended_thirty_hour_block
    (currentDate startRange endRange : Int) (events : List CalendarEvent)
    (range : TimeOfDay) (s : CalendarSlot)
    (h : s ∈ Enum.processRangeEntry currentDate startRange endRange events range) :
    atTimeOfDay currentDate range ≤ s.start ∧
      s.start < atTimeOfDay currentDate range + 30 * 60 * 60 * 1000 ∧
      s.durationM = 30 := by
  simp only [Enum.processRangeEntry] at h
  obtain ⟨ha, hb, -, -, he, -⟩ := walk30_mem h
  have hrange : atTimeOfDay currentDate ⟨range.hours + 30, range.minutes⟩ =
      atTimeOfDay currentDate range + 30 * 60 * 60 * 1000 := by
    simp only [atTimeOfDay, minutesOfDay]
    push_cast
    ring
  exact ⟨ha, by rw [hrange] at hb; exact hb, he⟩

/-- Closed instance of the amended C1 statement: the first Sunday slot
at 09:00 is produced by the entry 09:00 and starts inside its 30-hour
block. -/
theorem c1_amended_thirty_hour_block_witness :
    atTimeOfDay 259200000 ⟨9, 0⟩ ≤ (291600000 : Int) ∧
      (291600000 : Int) < atTimeOfDay 259200000 ⟨9, 0⟩ + 30 * 60 * 60 * 1000 ∧
      (30 : Nat) = 30 := by
  have := c1_amended_thirty_hour_block 259200000 259200000 298800000 [] ⟨9, 0⟩
    ⟨291600000, 30⟩ (by decide)
  exact this

/-- C4 (amended): ascending output order is guaranteed only within the
sub-slot walk of a single range entry on a single day: that walk is
strictly increasing in start time.  The concatenation across entries
and days is not sorted in general, because each entry's block spans 30
hours and overlaps later entries and days. -/
theorem c4_amended_per_entry_sorted (currentDate startRange endRange : Int)
    (events : List CalendarEvent) (range : TimeOfDay) :
    List.Pairwise (fun a b : CalendarSlot => a.start < b.start)
      (Enum.processRangeEntry currentDate startRange endRange events range) := by
  simp only [Enum.processRangeEntry]
  exact walk30_pairwise _ _

theorem dayIndex_eq_of {t D : Int} (h1 : D * 86400000 ≤ t)
    (h2 : t < (D + 1) * 86400000) : dayIndex t = D := by
  unfold dayIndex
  rw [Int.fdiv_eq_ediv _ (by norm_num)]
  have hD : D ≤ t / 86400000 := (Int.le_ediv_iff_mul_le (by norm_num)).2 (by linarith)
  have hD2 : t / 86400000 < D + 1 := (Int.ediv_lt_iff_lt_mul (by norm_num)).2 (by linarith)
  omega

theorem dayStart_le (t : Int) : dayStart t ≤ t := by
  unfold dayStart dayIndex
  rw [Int.fdiv_eq_ediv _ (by norm_num)]
  exact Int.ediv_mul_le t (by norm_num)

theorem lt_dayStart_add (t : Int) : t < dayStart t + 86400000 := by
  unfold dayStart dayIndex
  rw [Int.fdiv_eq_ediv _ (by norm_num)]
  have := Int.lt_ediv_add_one_mul_self t (b := 86400000) (by norm_num)
  linarith

/-- C3 (amended): only the unbuffered validator isSlotAvailableWithEvents
restricts the slot to the bounds built from the first two time-of-day
values of the weekday entry: whenever it accepts, the slot lies between
the instants of range[0] and range[1] on the slot's UTC day.  The
buffered variant isSlotAvailableWithBuffer instead tests every range
element against a window of that element's instant plus 24 hours, so
values beyond the first pair ARE consulted there and the first-pair
upper bound is not enforced. -/
theorem c3_amended_first_pair_only
    (availability : CalendarAvailability) (events : List CalendarEvent)
    (slot : CalendarSlot)
    (h : WithEvents.isSlotAvailableWithEvents availability events slot = .ok true) :
    ∃ entry r0 r1,
      availability.include.find? (fun a => a.weekday == getUTCDay slot.start)
          = some entry ∧
      entry.range.get? 0 = some r0 ∧ entry.range.get? 1 = some r1 ∧
      atTimeOfDay slot.start r0 ≤ slot.start ∧
      WithBuffer.calculateSlotEndTime slot.start slot.durationM ≤
        atTimeOfDay slot.start r1 := by
  simp only [WithEvents.isSlotAvailableWithEvents, bind, Except.bind] at h
  cases hw : WithEvents.isSlotWithinAvailability slot.start
      (WithBuffer.calculateSlotEndTime slot.start slot.durationM) availability with
  | error e => rw [hw] at h; simp at h
  | ok within =>
    rw [hw] at h
    cases within with
    | false => simp [pure, Except.pure] at h
    | true =>
      clear h
      unfold WithEvents.isSlotWithinAvailability at hw
      split at hw
      · simp at hw
      · rename_i entry hfind
        split at hw
        · rename_i r0 r1 hr0 hr1
          simp only [Except.ok.injEq] at hw
          exact ⟨entry, r0, r1, hfind, hr0, hr1,
            (of_decide_eq_true hw).1, (of_decide_eq_true hw).2⟩
        · simp at hw

/-- Closed instance of the amended C3 statement at an accepted slot. -/
theorem c3_amended_first_pair_only_witness :
    ∃ entry r0 r1,
      (⟨[⟨0, [⟨9, 0⟩, ⟨10, 0⟩]⟩]⟩ : CalendarAvailability).include.find?
          (fun a => a.weekday == getUTCDay (291600000 : Int)) = some entry ∧
      entry.range.get? 0 = some r0 ∧ entry.range.get? 1 = some r1 ∧
      atTimeOfDay 291600000 r0 ≤ (291600000 : Int) ∧
      WithBuffer.calculateSlotEndTime 291600000 30 ≤ atTimeOfDay 291600000 r1 := by
  have := c3_amended_first_pair_only ⟨[⟨0, [⟨9, 0⟩, ⟨10, 0⟩]⟩]⟩ []
    ⟨291600000, 30⟩ (by decide)
  exact this

/-- C6: boundary exactness holds in all three conflict tests: a slot
whose end equals the buffered event start, or whose start equals the
buffered event end, is not a conflict for the enumerator's three-way
test, the buffered validator's half-open test, or the multi-person
clearance test. -/
theorem c6_boundary_exactness (slotStart : Int) (durationM : Nat)
    (e : CalendarEvent) (hdur : 0 < durationM) (hev : e.start < e.«end»)
    (hb : slotStart + (durationM : Int) * 60000
            = WithBuffer.calculateEventStartWithBuffer e
        ∨ slotStart = WithBuffer.calculateEventEndWithBuffer e) :
    Enum.conflictsWithEvent slotStart (slotStart + (durationM : Int) * 60000) e = false
    ∧ WithBuffer.isSlotConflictedWithEvents slotStart
        (slotStart + (durationM : Int) * 60000) [e] = false
    ∧ Multi.slotClearsEvent slotStart (slotStart + (durationM : Int) * 60000) e
        = true := by
  simp only [Enum.conflictsWithEvent, WithBuffer.isSlotConflictedWithEvents,
    WithBuffer.conflictsWithEvent, WithBuffer.calculateEventStartWithBuffer,
    WithBuffer.calculateEventEndWithBuffer, Multi.slotClearsEvent,
    List.any_cons, List.any_nil, Bool.or_false, decide_eq_false_iff_not,
    decide_eq_true_eq, not_and, not_or, not_lt] at *
  omega

/-- Closed instance of the C6 statement: a 30-minute slot ending exactly
at the buffered start of a one-minute event is not a conflict. -/
theorem c6_boundary_exactness_witness :
    Enum.conflictsWithEvent (-1800000) ((-1800000 : Int) + (30 : Nat) * 60000)
        ⟨0, 60000, none⟩ = false
    ∧ WithBuffer.isSlotConflictedWithEvents (-1800000)
        ((-1800000 : Int) + (30 : Nat) * 60000) [⟨0, 60000, none⟩] = false
    ∧ Multi.slotClearsEvent (-1800000) ((-1800000 : Int) + (30 : Nat) * 60000)
        ⟨0, 60000, none⟩ = true := by
  have := c6_boundary_exactness (-1800000) 30 ⟨0, 60000, none⟩ (by decide)
    (by decide) (Or.inl (by decide))
  exact this

theorem buffered_overlap_to_threeway {sS sE : Int} {e : CalendarEvent}
    (h : WithBuffer.conflictsWithEvent sS sE e = true) :
    Enum.conflictsWithEvent sS sE e = true := by
  simp only [WithBuffer.conflictsWithEvent, WithBuffer.calculateEventStartWithBuffer,
    WithBuffer.calculateEventEndWithBuffer, Enum.conflictsWithEvent,
    decide_eq_true_eq] at *
  omega

theorem dayLoop_nil {availability : CalendarAvailability}
    {events : List CalendarEvent} {startRange endRange : Int} {fuel : Nat}
    {cur : Int} (h : endRange < cur) :
    Enum.dayLoop availability events startRange endRange fuel cur = [] := by
  cases fuel with
  | zero => simp [Enum.dayLoop]
  | succ fuel => simp [Enum.dayLoop, not_le.2 h]

theorem dayStart_eq_of_dayIndex_eq {a b : Int} (h : dayIndex a = dayIndex b) :
    dayStart a = dayStart b := by
  unfold dayStart
  rw [h]

theorem getUTCDay_eq_of_dayIndex_eq {a b : Int} (h : dayIndex a = dayIndex b) :
    getUTCDay a = getUTCDay b := by
  unfold getUTCDay
  rw [h]

theorem atTimeOfDay_eq_of_dayIndex_eq {a b : Int} (r : TimeOfDay)
    (h : dayIndex a = dayIndex b) : atTimeOfDay a r = atTimeOfDay b r := by
  unfold atTimeOfDay
  rw [dayStart_eq_of_dayIndex_eq h]

/-- C2 (amended): containment of the enumerator in the buffered
validator holds when the requested range lies within a single UTC day:
every slot returned by listAvailable30MinuteSlots then satisfies
isSlotAvailableWithBuffer with the same availability and events.  For
multi-day ranges containment fails, because the 30-hour per-entry block
can emit slots on the UTC day after the processed day. -/
theorem c2_amended_same_day_containment
    (availability : CalendarAvailability) (events : List CalendarEvent)
    (startRange endRange : Int) (s : CalendarSlot)
    (hday : dayIndex startRange = dayIndex endRange)
    (hs : s ∈ Enum.listAvailable30MinuteSlots availability events startRange endRange) :
    WithBuffer.isSlotAvailableWithBuffer availability events s = true := by
  have hsr : dayIndex startRange * 86400000 ≤ startRange := dayStart_le startRange
  have her : endRange < dayIndex startRange * 86400000 + 86400000 := by
    have := lt_dayStart_add endRange
    unfold dayStart at this
    omega
  simp only [Enum.listAvailable30MinuteSlots, Enum.dayLoop] at hs
  split at hs
  · rw [dayLoop_nil (by omega)] at hs
    rw [List.append_nil] at hs
    unfold Enum.processDay at hs
    split at hs
    · simp at hs
    · rename_i entry hfind
      rw [List.mem_flatMap] at hs
      obtain ⟨r, hrmem, hsr2⟩ := hs
      simp only [Enum.processRangeEntry] at hsr2
      obtain ⟨hA, hB, hC, hD, hE, hF⟩ := walk30_mem hsr2
      have hDs : dayIndex s.start = dayIndex startRange := by
        apply dayIndex_eq_of
        · omega
        · omega
      have hwd : getUTCDay s.start = getUTCDay startRange :=
        getUTCDay_eq_of_dayIndex_eq hDs
      have hslotEnd : WithBuffer.calculateSlotEndTime s.start s.durationM =
          s.start + 30 * 60 * 1000 := by
        rw [hE]
        simp [WithBuffer.calculateSlotEndTime]
      have hwithin : WithBuffer.isSlotWithinAvailability s.start
          (WithBuffer.calculateSlotEndTime s.start s.durationM) availability = true := by
        unfold WithBuffer.isSlotWithinAvailability
        rw [List.any_eq_true]
        refine ⟨entry, List.mem_of_find?_eq_some hfind, ?_⟩
        have hwk := List.find?_some hfind
        simp only [beq_iff_eq] at hwk
        rw [Bool.and_eq_true]
        constructor
        · simp [hwk, hwd]
        · unfold WithBuffer.isSlotInRange
          rw [List.any_eq_true]
          refine ⟨r, hrmem, ?_⟩
          simp only [decide_eq_true_eq]
          have hat : atTimeOfDay s.start r = atTimeOfDay startRange r :=
            atTimeOfDay_eq_of_dayIndex_eq r hDs
          constructor
          · rw [hat]; exact hA
          · rw [hslotEnd, hat]
            have hge : dayStart startRange ≤ atTimeOfDay startRange r := by
              unfold atTimeOfDay
              have hnn : (0 : Int) ≤ (minutesOfDay r : Int) * 60000 := by positivity
              omega
            unfold dayStart at hge
            omega
      have hconf : WithBuffer.isSlotConflictedWithEvents s.start
          (WithBuffer.calculateSlotEndTime s.start s.durationM) events = false := by
        rw [hslotEnd]
        unfold WithBuffer.isSlotConflictedWithEvents
        rw [List.any_eq_false]
        intro e he
        rw [List.any_eq_false] at hF
        have := hF e he
        intro hq
        exact this (buffered_overlap_to_threeway hq)
      simp [WithBuffer.isSlotAvailableWithBuffer, hwithin, hconf]
  · simp at hs

/-- Closed instance of the amended C2 statement: the Sunday 09:00 slot
returned over the one-day range Sunday 09:00 to 10:00 validates. -/
theorem c2_amended_same_day_containment_witness :
    WithBuffer.isSlotAvailableWithBuffer ⟨[⟨0, [⟨9, 0⟩, ⟨10, 0⟩]⟩]⟩ []
      ⟨291600000, 30⟩ = true :=
  c2_amended_same_day_containment ⟨[⟨0, [⟨9, 0⟩, ⟨10, 0⟩]⟩]⟩ []
    291600000 295200000 ⟨291600000, 30⟩ (by decide) (by decide)

theorem withbuffer_conflict_mono {sS sE : Int} {e e2 : CalendarEvent}
    (hle : EventLE e e2)
    (h : WithBuffer.conflictsWithEvent sS sE e = true) :
    WithBuffer.conflictsWithEvent sS sE e2 = true := by
  simp only [EventLE] at hle
  simp only [WithBuffer.conflictsWithEvent, WithBuffer.calculateEventStartWithBuffer,
    WithBuffer.calculateEventEndWithBuffer, decide_eq_true_eq] at *
  omega

theorem withbuffer_conflicted_mono {sS sE : Int} {events events2 : List CalendarEvent}
    (hF : EventsLE events events2)
    (h : WithBuffer.isSlotConflictedWithEvents sS sE events = true) :
    WithBuffer.isSlotConflictedWithEvents sS sE events2 = true := by
  unfold WithBuffer.isSlotConflictedWithEvents at *
  unfold EventsLE at hF
  revert h
  induction hF with
  | nil => intro h; simpa using h
  | cons hhead htail ih =>
    intro h
    simp only [List.any_cons, Bool.or_eq_true] at h ⊢
    rcases h with h1 | h1
    · exact Or.inl (withbuffer_conflict_mono hhead h1)
    · exact Or.inr (ih h1)

theorem enum_conflict_mono {sS sE : Int} {e e2 : CalendarEvent}
    (hle : EventLE e e2) (hs : sS < sE) (hwf : e.start < e.«end»)
    (h : Enum.conflictsWithEvent sS sE e = true) :
    Enum.conflictsWithEvent sS sE e2 = true := by
  simp only [EventLE] at hle
  simp only [Enum.conflictsWithEvent, decide_eq_true_eq] at *
  omega

theorem enum_any_conflict_mono {sS sE : Int} {events events2 : List CalendarEvent}
    (hF : EventsLE events events2) (hs : sS < sE)
    (hwf : ∀ e ∈ events, e.start < e.«end»)
    (h : events.any (Enum.conflictsWithEvent sS sE) = true) :
    events2.any (Enum.conflictsWithEvent sS sE) = true := by
  unfold EventsLE at hF
  revert hwf h
  induction hF with
  | nil => intro _ h; simpa using h
  | cons hhead htail ih =>
    intro hwf h
    simp only [List.any_cons, Bool.or_eq_true] at h ⊢
    rcases h with h1 | h1
    · exact Or.inl (enum_conflict_mono hhead hs (hwf _ (by simp)) h1)
    · exact Or.inr (ih (fun x hx => hwf x (by simp [hx])) h1)

theorem walk30_mono {startRange endRange rangeEndTime : Int}
    {events events2 : List CalendarEvent} (hF : EventsLE events events2)
    (hwf : ∀ e ∈ events, e.start < e.«end») {fuel : Nat} {cur : Int}
    {s : CalendarSlot}
    (h : s ∈ Enum.walk30 startRange endRange rangeEndTime events2 fuel cur) :
    s ∈ Enum.walk30 startRange endRange rangeEndTime events fuel cur := by
  induction fuel generalizing cur with
  | zero => simpa [Enum.walk30] using h
  | succ fuel ih =>
    simp only [Enum.walk30] at h ⊢
    split at h
    · rename_i h1
      rw [if_pos h1]
      split at h
      · simp at h
      · rename_i h2
        rw [if_neg h2]
        rcases List.mem_append.1 h with h3 | h3
        · refine List.mem_append.2 (Or.inl ?_)
          split at h3
          · simp at h3
          · rename_i hc2
            have hc : events.any (Enum.conflictsWithEvent cur (cur + 30 * 60 * 1000))
                = false := by
              by_contra hcc
              rw [Bool.not_eq_false] at hcc
              exact hc2 (enum_any_conflict_mono hF (by norm_num) hwf hcc)
            rw [if_neg (by rw [hc]; simp)]
            exact h3
        · exact List.mem_append.2 (Or.inr (ih h3))
    · rename_i h1
      rw [if_neg h1]
      exact h

theorem processDay_mono {availability : CalendarAvailability}
    {events events2 : List CalendarEvent} (hF : EventsLE events events2)
    (hwf : ∀ e ∈ events, e.start < e.«end») {currentDate startRange endRange : Int}
    {s : CalendarSlot}
    (h : s ∈ Enum.processDay availability events2 currentDate startRange endRange) :
    s ∈ Enum.processDay availability events currentDate startRange endRange := by
  unfold Enum.processDay at *
  split at h
  · simp at h
  · rename_i entry hfind
    rw [List.mem_flatMap] at h ⊢
    obtain ⟨r, hr, hm⟩ := h
    refine ⟨r, hr, ?_⟩
    simp only [Enum.processRangeEntry] at hm ⊢
    exact walk30_mono hF hwf hm

theorem dayLoop_mono {availability : CalendarAvailability}
    {events events2 : List CalendarEvent} (hF : EventsLE events events2)
    (hwf : ∀ e ∈ events, e.start < e.«end») {startRange endRange : Int}
    {fuel : Nat} {cur : Int} {s : CalendarSlot}
    (h : s ∈ Enum.dayLoop availability events2 startRange endRange fuel cur) :
    s ∈ Enum.dayLoop availability events startRange endRange fuel cur := by
  induction fuel generalizing cur with
  | zero => simpa [Enum.dayLoop] using h
  | succ fuel ih =>
    simp only [Enum.dayLoop] at h ⊢
    split at h
    · rename_i h1
      rw [if_pos h1]
      rcases List.mem_append.1 h with h3 | h3
      · exact List.mem_append.2 (Or.inl (processDay_mono hF hwf h3))
      · exact List.mem_append.2 (Or.inr (ih h3))
    · rename_i h1
      rw [if_neg h1]
      exact h

theorem slotClearsEvent_mono {sS sE : Int} {e e2 : CalendarEvent}
    (hle : EventLE e e2)
    (h : Multi.slotClearsEvent sS sE e2 = true) :
    Multi.slotClearsEvent sS sE e = true := by
  simp only [EventLE] at hle
  simp only [Multi.slotClearsEvent, decide_eq_true_eq] at *
  omega

theorem events_all_clears_mono {sS sE : Int} {l l2 : List CalendarEvent}
    (hF : EventsLE l l2)
    (h : l2.all (Multi.slotClearsEvent sS sE) = true) :
    l.all (Multi.slotClearsEvent sS sE) = true := by
  unfold EventsLE at hF
  revert h
  induction hF with
  | nil => intro h; simp
  | cons hhead htail ih =>
    intro h
    simp only [List.all_cons, Bool.and_eq_true] at h ⊢
    exact ⟨slotClearsEvent_mono hhead h.1, ih h.2⟩

theorem attendees_all_clears_mono {sS sE : Int} {att att2 : List Multi.Attendee}
    (hF : AttendeesLE att att2)
    (h : att2.all (fun a => a.events.all (Multi.slotClearsEvent sS sE)) = true) :
    att.all (fun a => a.events.all (Multi.slotClearsEvent sS sE)) = true := by
  unfold AttendeesLE at hF
  revert h
  induction hF with
  | nil => intro h; simp
  | cons hhead htail ih =>
    intro h
    simp only [List.all_cons, Bool.and_eq_true] at h ⊢
    exact ⟨events_all_clears_mono hhead.2 h.1, ih h.2⟩

theorem multiWalk_mono {endRange rangeEndTime : Int}
    {att att2 : List Multi.Attendee} (hF : AttendeesLE att att2)
    {fuel : Nat} {cur : Int} {s : CalendarSlot}
    (h : s ∈ Multi.multiWalk endRange rangeEndTime att2 fuel cur) :
    s ∈ Multi.multiWalk endRange rangeEndTime att fuel cur := by
  induction fuel generalizing cur with
  | zero => simp [Multi.multiWalk] at h
  | succ fuel ih =>
    simp only [Multi.multiWalk] at h ⊢
    split at h
    · rename_i h1
      rw [if_pos h1]
      rcases List.mem_append.1 h with h3 | h3
      · refine List.mem_append.2 (Or.inl ?_)
        split at h3
        · rename_i hall2
          rw [if_pos (attendees_all_clears_mono hF hall2)]
          exact h3
        · simp at h3
      · exact List.mem_append.2 (Or.inr (ih h3))
    · rename_i h1
      rw [if_neg h1]
      exact h

theorem attendees_ranges_eq {att att2 : List Multi.Attendee}
    (hF : AttendeesLE att att2) (wd : Nat) :
    att.filterMap (fun a =>
        (a.availability.include.find? (fun day => day.weekday == wd)).map (·.range))
      = att2.filterMap (fun a =>
        (a.availability.include.find? (fun day => day.weekday == wd)).map (·.range)) := by
  unfold AttendeesLE at hF
  induction hF with
  | nil => rfl
  | cons hhead htail ih =>
    simp only [List.filterMap_cons, hhead.1, ih]

theorem processDayMulti_mono {att att2 : List Multi.Attendee}
    (hF : AttendeesLE att att2) {currentDate endRange : Int}
    {l2 : List CalendarSlot}
    (h : Multi.processDayMulti att2 currentDate endRange = .ok l2) :
    ∃ l, Multi.processDayMulti att currentDate endRange = .ok l
      ∧ ∀ s ∈ l2, s ∈ l := by
  simp only [Multi.processDayMulti] at h ⊢
  have hlen : att.length = att2.length := by
    unfold AttendeesLE at hF
    exact hF.length_eq
  rw [attendees_ranges_eq hF (getUTCDay currentDate), hlen]
  split at h
  · rename_i hcond
    rw [if_pos hcond]
    simp only [pure, Except.pure, Except.ok.injEq] at h
    exact ⟨l2, by rw [h]; rfl, fun s hs => hs⟩
  · rename_i hcond
    rw [if_neg hcond]
    split at h
    · simp at h
    · rename_i first rest hm
      cases hfold : rest.foldlM Multi.intersectRanges first with
      | error msg =>
        rw [hfold] at h
        simp [Except.bind, bind] at h
      | ok common =>
        rw [hfold] at h
        simp only [bind, Except.bind, pure, Except.pure, Except.ok.injEq] at h
        refine ⟨(Multi.toPairs common).flatMap
          (Multi.processPair currentDate endRange att), by
            simp only [bind, Except.bind, pure, Except.pure], ?_⟩
        intro s hs
        rw [← h] at hs
        rw [List.mem_flatMap] at hs ⊢
        obtain ⟨p, hp, hsp⟩ := hs
        refine ⟨p, hp, ?_⟩
        simp only [Multi.processPair] at hsp ⊢
        exact multiWalk_mono hF hsp

theorem dayLoopMulti_mono {att att2 : List Multi.Attendee}
    (hF : AttendeesLE att att2) {endRange : Int} {fuel : Nat} {cur : Int}
    {l2 : List CalendarSlot}
    (h : Multi.dayLoopMulti att2 endRange fuel cur = .ok l2) :
    ∃ l, Multi.dayLoopMulti att endRange fuel cur = .ok l ∧ ∀ s ∈ l2, s ∈ l := by
  induction fuel generalizing cur l2 with
  | zero =>
    simp only [Multi.dayLoopMulti, Except.ok.injEq] at h
    exact ⟨[], rfl, by rw [← h]; simp⟩
  | succ fuel ih =>
    simp only [Multi.dayLoopMulti] at h ⊢
    split at h
    · rename_i h1
      rw [if_pos h1]
      cases hday : Multi.processDayMulti att2 cur endRange with
      | error msg =>
        rw [hday] at h
        simp [Except.bind, bind] at h
      | ok here2 =>
        rw [hday] at h
        obtain ⟨here, hhere, hsub⟩ := processDayMulti_mono hF hday
        rw [hhere]
        cases hrest : Multi.dayLoopMulti att2 endRange fuel (cur + 86400000) with
        | error msg =>
          rw [hrest] at h
          simp [Except.bind, bind] at h
        | ok rest2 =>
          rw [hrest] at h
          obtain ⟨rest, hrestk, hsub2⟩ := ih hrest
          rw [hrestk]
          simp only [bind, Except.bind, pure, Except.pure, Except.ok.injEq] at h ⊢
          refine ⟨here ++ rest, rfl, ?_⟩
          intro s hs
          rw [← h] at hs
          rcases List.mem_append.1 hs with h3 | h3
          · exact List.mem_append.2 (Or.inl (hsub s h3))
          · exact List.mem_append.2 (Or.inr (hsub2 s h3))
    · rename_i h1
      rw [if_neg h1]
      simp only [Except.ok.injEq] at h
      exact ⟨l2, by rw [h], fun s hs => hs⟩

/-- C7: buffer monotonicity: with events related pointwise by equal
start and end and componentwise larger buffers, every slot accepted
under the larger buffers is accepted under the smaller ones, for the
buffered validator, the single-person enumerator (whose events must be
well formed, start before end), and the multi-person enumerator. -/
theorem c7_buffer_monotonicity :
    (∀ availability events events2 slot, EventsLE events events2 →
      WithBuffer.isSlotAvailableWithBuffer availability events2 slot = true →
      WithBuffer.isSlotAvailableWithBuffer availability events slot = true)
    ∧ (∀ availability events events2 startRange endRange s,
      EventsLE events events2 → (∀ e ∈ events, e.start < e.«end») →
      s ∈ Enum.listAvailable30MinuteSlots availability events2 startRange endRange →
      s ∈ Enum.listAvailable30MinuteSlots availability events startRange endRange)
    ∧ (∀ attendees attendees2 startRange endRange l2,
      AttendeesLE attendees attendees2 →
      Multi.listAvailable30MinuteSlotsMultiplePerson attendees2 startRange endRange
        = .ok l2 →
      ∃ l, Multi.listAvailable30MinuteSlotsMultiplePerson attendees startRange endRange
        = .ok l ∧ ∀ s ∈ l2, s ∈ l) := by
  refine ⟨?_, ?_, ?_⟩
  · intro availability events events2 slot hF h
    simp only [WithBuffer.isSlotAvailableWithBuffer] at h ⊢
    split at h
    · simp at h
    · rename_i hwithin
      rw [if_neg hwithin]
      split at h
      · simp at h
      · rename_i hconf2
        rw [if_neg (fun hc => hconf2 (withbuffer_conflicted_mono hF hc))]
  · intro availability events events2 startRange endRange s hF hwf h
    simp only [Enum.listAvailable30MinuteSlots] at h ⊢
    exact dayLoop_mono hF hwf h
  · intro attendees attendees2 startRange endRange l2 hF h
    simp only [Multi.listAvailable30MinuteSlotsMultiplePerson] at h ⊢
    exact dayLoopMulti_mono hF h

/-- Closed instance of the C7 statement: widening the buffer of a
midnight event from zero to ten minutes cannot newly admit the Sunday
09:00 slot, which the smaller buffer already accepts. -/
theorem c7_buffer_monotonicity_witness :
    WithBuffer.isSlotAvailableWithBuffer ⟨[⟨0, [⟨9, 0⟩, ⟨10, 0⟩]⟩]⟩
      [⟨259200000, 261000000, some ⟨0, 0⟩⟩] ⟨291600000, 30⟩ = true :=
  c7_buffer_monotonicity.1 ⟨[⟨0, [⟨9, 0⟩, ⟨10, 0⟩]⟩]⟩
    [⟨259200000, 261000000, some ⟨0, 0⟩⟩]
    [⟨259200000, 261000000, some ⟨10, 10⟩⟩] ⟨291600000, 30⟩
    (List.Forall₂.cons ⟨rfl, rfl, by decide, by decide⟩ List.Forall₂.nil)
    (by decide)

theorem intersectGo_ok_even {A B : List TimeOfDay}
    (hA : A.length % 2 = 0) (hB : B.length % 2 = 0) {fuel i j : Nat}
    (hi : i % 2 = 0) (hj : j % 2 = 0) :
    ∃ r, Multi.intersectGo A B fuel i j = .ok r ∧ r.length % 2 = 0 := by
  induction fuel generalizing i j with
  | zero => exact ⟨[], rfl, rfl⟩
  | succ fuel ih =>
    simp only [Multi.intersectGo]
    split
    · rename_i hcond
      cases hg1 : A.get? i with
      | none => rw [List.get?_eq_none] at hg1; omega
      | some startA =>
        cases hg2 : A.get? (i + 1) with
        | none => rw [List.get?_eq_none] at hg2; omega
        | some endA =>
          cases hg3 : B.get? j with
          | none => rw [List.get?_eq_none] at hg3; omega
          | some startB =>
            cases hg4 : B.get? (j + 1) with
            | none => rw [List.get?_eq_none] at hg4; omega
            | some endB =>
              dsimp only
              by_cases hadv : minutesOfDay endA < minutesOfDay endB
              · rw [if_pos hadv, if_pos hadv]
                obtain ⟨r, hr, he⟩ := ih (i := i + 2) (j := j) (by omega) hj
                rw [hr]
                refine ⟨_, rfl, ?_⟩
                rw [List.length_append]
                split <;> split <;>
                  (try simp only [List.length_cons, List.length_nil]) <;> omega
              · rw [if_neg hadv, if_neg hadv]
                obtain ⟨r, hr, he⟩ := ih (i := i) (j := j + 2) hi (by omega)
                rw [hr]
                refine ⟨_, rfl, ?_⟩
                rw [List.length_append]
                split <;> split <;>
                  (try simp only [List.length_cons, List.length_nil]) <;> omega
    · exact ⟨[], rfl, rfl⟩

theorem intersectRanges_ok_even {A B : List TimeOfDay}
    (hA : A.length % 2 = 0) (hB : B.length % 2 = 0) :
    ∃ r, Multi.intersectRanges A B = .ok r ∧ r.length % 2 = 0 :=
  intersectGo_ok_even hA hB rfl rfl

theorem foldlM_intersect_ok {ranges : List (List TimeOfDay)}
    {acc : List TimeOfDay} (hacc : acc.length % 2 = 0)
    (hall : ∀ r ∈ ranges, r.length % 2 = 0) :
    ∃ r, ranges.foldlM Multi.intersectRanges acc = .ok r ∧ r.length % 2 = 0 := by
  induction ranges generalizing acc with
  | nil => exact ⟨acc, rfl, hacc⟩
  | cons head tail ih =>
    obtain ⟨r1, hr1, he1⟩ := intersectRanges_ok_even hacc (hall head (by simp))
    obtain ⟨r2, hr2, he2⟩ := ih he1 (fun r hr => hall r (by simp [hr]))
    refine ⟨r2, ?_, he2⟩
    rw [List.foldlM_cons, hr1]
    simpa [bind, Except.bind] using hr2

theorem processDayMulti_ok {attendees : List Multi.Attendee}
    (hne : attendees ≠ []) (hev : EvenRangesAttendees attendees)
    (currentDate endRange : Int) :
    ∃ l, Multi.processDayMulti attendees currentDate endRange = .ok l := by
  simp only [Multi.processDayMulti]
  split
  · exact ⟨[], rfl⟩
  · rename_i hcond
    have heven_all : ∀ r ∈ attendees.filterMap (fun a =>
        (a.availability.include.find?
          (fun day => day.weekday == getUTCDay currentDate)).map (·.range)),
        r.length % 2 = 0 := by
      intro r hr
      rw [List.mem_filterMap] at hr
      obtain ⟨a, ha, hfa⟩ := hr
      rw [Option.map_eq_some'] at hfa
      obtain ⟨w, hw, hwr⟩ := hfa
      rw [← hwr]
      exact hev a ha w (List.mem_of_find?_eq_some hw)
    cases hm : attendees.filterMap (fun a =>
        (a.availability.include.find?
          (fun day => day.weekday == getUTCDay currentDate)).map (·.range)) with
    | nil =>
      exfalso
      rw [ne_eq, not_not, hm] at hcond
      have hlen0 : attendees.length = 0 := by simpa using hcond.symm
      exact hne (List.length_eq_zero.1 hlen0)
    | cons first rest =>
      rw [hm] at heven_all
      dsimp only
      obtain ⟨common, hcom, hce⟩ := foldlM_intersect_ok
        (heven_all first (List.mem_cons_self _ _))
        (fun r hr => heven_all r (List.mem_cons_of_mem _ hr))
      rw [hcom]
      exact ⟨_, rfl⟩

theorem dayLoopMulti_ok {attendees : List Multi.Attendee}
    (hne : attendees ≠ []) (hev : EvenRangesAttendees attendees)
    (endRange : Int) (fuel : Nat) (cur : Int) :
    ∃ l, Multi.dayLoopMulti attendees endRange fuel cur = .ok l := by
  induction fuel generalizing cur with
  | zero => exact ⟨[], rfl⟩
  | succ fuel ih =>
    simp only [Multi.dayLoopMulti]
    split
    · obtain ⟨here, hh⟩ := processDayMulti_ok hne hev cur endRange
      obtain ⟨rest, hr⟩ := ih (cur + 86400000)
      refine ⟨here ++ rest, ?_⟩
      rw [hh]
      simp only [bind, Except.bind]
      rw [hr]
      rfl
    · exact ⟨[], rfl⟩

/-- C5 (amended): no exception is raised for well-formed shapes: with a
nonempty attendee list whose availability range lists all have even
length, listAvailable30MinuteSlotsMultiplePerson succeeds, and
intersectRanges succeeds on any two even-length pair-sequences.  The
two shapes named by the original claim DO throw: an odd-length range
reaching intersectRanges dereferences a missing pair end, and an empty
attendee list reaches reduce of an empty array without initial value. -/
theorem c5_amended_no_throw_when_well_formed
    (attendees : List Multi.Attendee) (startRange endRange : Int)
    (rangeA rangeB : List TimeOfDay)
    (hne : attendees ≠ []) (hev : EvenRangesAttendees attendees)
    (hA : rangeA.length % 2 = 0) (hB : rangeB.length % 2 = 0) :
    (Multi.listAvailable30MinuteSlotsMultiplePerson attendees startRange
        endRange).isOk = true
    ∧ (Multi.intersectRanges rangeA rangeB).isOk = true := by
  constructor
  · obtain ⟨l, hl⟩ := dayLoopMulti_ok hne hev endRange
      ((endRange - startRange).toNat + 1) startRange
    simp only [Multi.listAvailable30MinuteSlotsMultiplePerson]
    rw [hl]
    rfl
  · obtain ⟨r, hr, -⟩ := intersectRanges_ok_even hA hB
    rw [hr]
    rfl

/-- Closed instance of the amended C5 statement: one attendee with an
empty weekly template and two even pair-sequences raise nothing. -/
theorem c5_amended_no_throw_when_well_formed_witness :
    (Multi.listAvailable30MinuteSlotsMultiplePerson [⟨⟨[]⟩, []⟩] 0 0).isOk = true
    ∧ (Multi.intersectRanges [⟨9, 0⟩, ⟨10, 0⟩] []).isOk = true :=
  c5_amended_no_throw_when_well_formed [⟨⟨[]⟩, []⟩] 0 0
    [⟨9, 0⟩, ⟨10, 0⟩] [] (by decide)
    (by intro a ha w hw; rcases List.mem_singleton.1 ha with rfl; simp at hw)
    (by decide) (by decide)

theorem intersectGo_drop {A B : List TimeOfDay} {fuel : Nat} {i j : Nat} :
    Multi.intersectGo A B fuel i j
      = Multi.intersectGo (A.drop i) (B.drop j) fuel 0 0 := by
  induction fuel generalizing A B i j with
  | zero => rfl
  | succ fuel ih =>
    simp only [Multi.intersectGo]
    have hcond : (i < A.length ∧ j < B.length)
        ↔ (0 < (A.drop i).length ∧ 0 < (B.drop j).length) := by
      rw [List.length_drop, List.length_drop]
      omega
    by_cases hc : i < A.length ∧ j < B.length
    · rw [if_pos hc, if_pos (hcond.1 hc)]
      have g1 : (A.drop i).get? 0 = A.get? i := by
        simp [List.get?_drop]
      have g2 : (A.drop i).get? (0 + 1) = A.get? (i + 1) := by
        simp [List.get?_drop]
      have g3 : (B.drop j).get? 0 = B.get? j := by
        simp [List.get?_drop]
      have g4 : (B.drop j).get? (0 + 1) = B.get? (j + 1) := by
        simp [List.get?_drop]
      rw [g1, g2, g3, g4]
      cases A.get? i <;> cases A.get? (i + 1) <;> cases B.get? j <;>
        cases B.get? (j + 1) <;> try rfl
      rename_i startA endA startB endB
      have r1 : Multi.intersectGo A B fuel (i + 2) j
          = Multi.intersectGo (A.drop i) (B.drop j) fuel (0 + 2) 0 := by
        conv_lhs => rw [ih]
        conv_rhs => rw [ih]
        rw [List.drop_drop, List.drop_drop]
        norm_num
      have r2 : Multi.intersectGo A B fuel i (j + 2)
          = Multi.intersectGo (A.drop i) (B.drop j) fuel 0 (0 + 2) := by
        conv_lhs => rw [ih]
        conv_rhs => rw [ih]
        rw [List.drop_drop, List.drop_drop]
        norm_num
      rw [r1, r2]
    · rw [if_neg hc, if_neg (fun h => hc (hcond.2 h))]

theorem minutePairs_cons (a b : TimeOfDay) (l : List TimeOfDay) :
    minutePairs (a :: b :: l)
      = (minutesOfDay a, minutesOfDay b) :: minutePairs l := rfl

theorem sep_head : ∀ {x : Nat × Nat} {L : List (Nat × Nat)},
    List.Chain' (fun p q => p.2 ≤ q.1) (x :: L) →
    (∀ p ∈ L, p.1 < p.2) → ∀ q ∈ L, x.2 ≤ q.1
  | _, [], _, _, _, hq => by simp at hq
  | x, y :: L2, hchain, hasc, q, hq => by
    rw [List.chain'_cons] at hchain
    rcases List.mem_cons.1 hq with rfl | hq2
    · exact hchain.1
    · have hy := sep_head hchain.2
        (fun p hp => hasc p (List.mem_cons_of_mem _ hp)) q hq2
      have hyy : y.1 < y.2 := hasc y (List.mem_cons_self _ _)
      omega

theorem validPairSeq_tail {a b : TimeOfDay} {l : List TimeOfDay}
    (h : ValidPairSeq (a :: b :: l)) : ValidPairSeq l := by
  obtain ⟨he, hc, ha⟩ := h
  refine ⟨?_, ?_, ?_⟩
  · simp only [List.length_cons] at he
    omega
  · rw [minutePairs_cons] at hc
    exact hc.tail
  · intro p hp
    exact ha p (by rw [minutePairs_cons]; exact List.mem_cons_of_mem _ hp)

theorem overlapPairs_advance_left {a1 a2 b1 b2 : TimeOfDay}
    {A2 B2 : List TimeOfDay} (hvB : ValidPairSeq (b1 :: b2 :: B2))
    (hadv : minutesOfDay a2 < minutesOfDay b2) (p : Nat × Nat) :
    overlapPairs (a1 :: a2 :: A2) (b1 :: b2 :: B2) p ↔
      ((max (minutesOfDay a1) (minutesOfDay b1)
          < min (minutesOfDay a2) (minutesOfDay b2) ∧
        p = (max (minutesOfDay a1) (minutesOfDay b1),
             min (minutesOfDay a2) (minutesOfDay b2)))
       ∨ overlapPairs A2 (b1 :: b2 :: B2) p) := by
  constructor
  · rintro ⟨a, ha, b, hb, hov, rfl⟩
    rw [minutePairs_cons, List.mem_cons] at ha
    rcases ha with rfl | ha2
    · rw [minutePairs_cons, List.mem_cons] at hb
      rcases hb with rfl | hb2
      · exact Or.inl ⟨hov, rfl⟩
      · exfalso
        have hchain := hvB.2.1
        rw [minutePairs_cons] at hchain
        have hsep := sep_head hchain
          (fun q hq => hvB.2.2 q
            (by rw [minutePairs_cons]; exact List.mem_cons_of_mem _ hq)) b hb2
        simp only [] at hsep hov
        omega
    · exact Or.inr ⟨a, ha2, b, hb, hov, rfl⟩
  · rintro (⟨hov, rfl⟩ | ⟨a, ha, b, hb, hov, rfl⟩)
    · refine ⟨(minutesOfDay a1, minutesOfDay a2),
        by rw [minutePairs_cons]; exact List.mem_cons_self _ _,
        (minutesOfDay b1, minutesOfDay b2),
        by rw [minutePairs_cons]; exact List.mem_cons_self _ _, hov, rfl⟩
    · exact ⟨a, by rw [minutePairs_cons]; exact List.mem_cons_of_mem _ ha,
        b, hb, hov, rfl⟩

theorem overlapPairs_advance_right {a1 a2 b1 b2 : TimeOfDay}
    {A2 B2 : List TimeOfDay} (hvA : ValidPairSeq (a1 :: a2 :: A2))
    (hadv : minutesOfDay b2 ≤ minutesOfDay a2) (p : Nat × Nat) :
    overlapPairs (a1 :: a2 :: A2) (b1 :: b2 :: B2) p ↔
      ((max (minutesOfDay a1) (minutesOfDay b1)
          < min (minutesOfDay a2) (minutesOfDay b2) ∧
        p = (max (minutesOfDay a1) (minutesOfDay b1),
             min (minutesOfDay a2) (minutesOfDay b2)))
       ∨ overlapPairs (a1 :: a2 :: A2) B2 p) := by
  constructor
  · rintro ⟨a, ha, b, hb, hov, rfl⟩
    rw [minutePairs_cons, List.mem_cons] at hb
    rcases hb with rfl | hb2
    · rw [minutePairs_cons, List.mem_cons] at ha
      rcases ha with rfl | ha2
      · exact Or.inl ⟨hov, rfl⟩
      · exfalso
        have hchain := hvA.2.1
        rw [minutePairs_cons] at hchain
        have hsep := sep_head hchain
          (fun q hq => hvA.2.2 q
            (by rw [minutePairs_cons]; exact List.mem_cons_of_mem _ hq)) a ha2
        simp only [] at hsep hov
        omega
    · exact Or.inr ⟨a, ha, b, hb2, hov, rfl⟩
  · rintro (⟨hov, rfl⟩ | ⟨a, ha, b, hb, hov, rfl⟩)
    · refine ⟨(minutesOfDay a1, minutesOfDay a2),
        by rw [minutePairs_cons]; exact List.mem_cons_self _ _,
        (minutesOfDay b1, minutesOfDay b2),
        by rw [minutePairs_cons]; exact List.mem_cons_self _ _, hov, rfl⟩
    · exact ⟨a, ha, b,
        by rw [minutePairs_cons]; exact List.mem_cons_of_mem _ hb, hov, rfl⟩

theorem intersectGo_cons_step {a1 a2 b1 b2 : TimeOfDay}
    {A2 B2 : List TimeOfDay} {fuel : Nat} :
    Multi.intersectGo (a1 :: a2 :: A2) (b1 :: b2 :: B2) (fuel + 1) 0 0 =
      (fun rest =>
        (if minutesOfDay (if minutesOfDay a1 > minutesOfDay b1 then a1 else b1)
            < minutesOfDay (if minutesOfDay a2 < minutesOfDay b2 then a2 else b2) then
          [if minutesOfDay a1 > minutesOfDay b1 then a1 else b1,
           if minutesOfDay a2 < minutesOfDay b2 then a2 else b2]
         else []) ++ rest) <$>
      (if minutesOfDay a2 < minutesOfDay b2 then
          Multi.intersectGo A2 (b1 :: b2 :: B2) fuel 0 0
        else
          Multi.intersectGo (a1 :: a2 :: A2) B2 fuel 0 0) := by
  have d1 : Multi.intersectGo (a1 :: a2 :: A2) (b1 :: b2 :: B2) fuel (0 + 2) 0
      = Multi.intersectGo A2 (b1 :: b2 :: B2) fuel 0 0 := by
    rw [intersectGo_drop]
    rfl
  have d2 : Multi.intersectGo (a1 :: a2 :: A2) (b1 :: b2 :: B2) fuel 0 (0 + 2)
      = Multi.intersectGo (a1 :: a2 :: A2) B2 fuel 0 0 := by
    rw [intersectGo_drop]
    rfl
  simp only [Multi.intersectGo]
  rw [if_pos (by simp)]
  simp only [List.get?_cons_zero, List.get?_cons_succ]
  rw [d1, d2]

theorem overlapPairs_nil_left {B : List TimeOfDay} {p : Nat × Nat}
    (h : overlapPairs [] B p) : False := by
  obtain ⟨a, ha, -⟩ := h
  simp [minutePairs, Multi.toPairs] at ha

theorem overlapPairs_nil_right {A : List TimeOfDay} {p : Nat × Nat}
    (h : overlapPairs A [] p) : False := by
  obtain ⟨a, -, b, hb, -⟩ := h
  simp [minutePairs, Multi.toPairs] at hb

theorem intersectGo_spec (fuel : Nat) : ∀ {A B : List TimeOfDay},
    A.length + B.length ≤ 2 * fuel →
    ValidPairSeq A → ValidPairSeq B →
    ∃ r, Multi.intersectGo A B fuel 0 0 = .ok r ∧
      ∀ p, p ∈ minutePairs r ↔ overlapPairs A B p := by
  induction fuel with
  | zero =>
    intro A B hlen hvA hvB
    have hA0 : A = [] := List.length_eq_zero.1 (by omega)
    subst hA0
    refine ⟨[], rfl, fun p => ⟨fun hp => ?_, fun hp => ?_⟩⟩
    · simp [minutePairs, Multi.toPairs] at hp
    · exact absurd hp overlapPairs_nil_left
  | succ fuel ih =>
    intro A B hlen hvA hvB
    match A, hvA with
    | [], _ =>
      refine ⟨[], by simp [Multi.intersectGo], fun p => ⟨fun hp => ?_, fun hp => ?_⟩⟩
      · simp [minutePairs, Multi.toPairs] at hp
      · exact absurd hp overlapPairs_nil_left
    | [a1], hvA =>
      exact absurd hvA.1 (by simp)
    | a1 :: a2 :: A2, hvA =>
      match B, hvB with
      | [], _ =>
        refine ⟨[], by simp [Multi.intersectGo], fun p => ⟨fun hp => ?_, fun hp => ?_⟩⟩
        · simp [minutePairs, Multi.toPairs] at hp
        · exact absurd hp overlapPairs_nil_right
      | [b1], hvB =>
        exact absurd hvB.1 (by simp)
      | b1 :: b2 :: B2, hvB =>
        rw [intersectGo_cons_step]
        have hmax : minutesOfDay (if minutesOfDay a1 > minutesOfDay b1 then a1 else b1)
            = max (minutesOfDay a1) (minutesOfDay b1) := by
          split <;> omega
        by_cases hadv : minutesOfDay a2 < minutesOfDay b2
        · have hminEq : min (minutesOfDay a2) (minutesOfDay b2) = minutesOfDay a2 :=
            min_eq_left hadv.le
          rw [if_pos hadv, if_pos hadv]
          obtain ⟨r, hr, hiff⟩ := ih (A := A2) (B := b1 :: b2 :: B2)
            (by simp only [List.length_cons] at hlen ⊢; omega)
            (validPairSeq_tail hvA) hvB
          rw [hr]
          refine ⟨_, rfl, fun p => ?_⟩
          rw [overlapPairs_advance_left hvB hadv]
          by_cases hemit : max (minutesOfDay a1) (minutesOfDay b1)
              < min (minutesOfDay a2) (minutesOfDay b2)
          · rw [if_pos (by rw [hmax]; exact lt_of_lt_of_le hemit (min_le_left _ _))]
            simp only [List.cons_append, List.nil_append]
            rw [minutePairs_cons, List.mem_cons, hiff, hmax, hminEq]
            constructor
            · rintro (rfl | hp)
              · exact Or.inl ⟨lt_of_lt_of_le hemit (min_le_left _ _), rfl⟩
              · exact Or.inr hp
            · rintro (⟨-, rfl⟩ | hp)
              · exact Or.inl rfl
              · exact Or.inr hp
          · rw [if_neg (by rw [hmax, ← hminEq]; exact hemit)]
            simp only [List.nil_append]
            rw [hiff]
            constructor
            · intro hp
              exact Or.inr hp
            · rintro (⟨hov, -⟩ | hp)
              · exact absurd hov hemit
              · exact hp
        · have hminEq : min (minutesOfDay a2) (minutesOfDay b2) = minutesOfDay b2 :=
            min_eq_right (le_of_not_lt hadv)
          rw [if_neg hadv, if_neg hadv]
          obtain ⟨r, hr, hiff⟩ := ih (A := a1 :: a2 :: A2) (B := B2)
            (by simp only [List.length_cons] at hlen ⊢; omega)
            hvA (validPairSeq_tail hvB)
          rw [hr]
          refine ⟨_, rfl, fun p => ?_⟩
          rw [overlapPairs_advance_right hvA (le_of_not_lt hadv)]
          by_cases hemit : max (minutesOfDay a1) (minutesOfDay b1)
              < min (minutesOfDay a2) (minutesOfDay b2)
          · rw [if_pos (by rw [hmax]; exact lt_of_lt_of_le hemit (min_le_right _ _))]
            simp only [List.cons_append, List.nil_append]
            rw [minutePairs_cons, List.mem_cons, hiff, hmax, hminEq]
            constructor
            · rintro (rfl | hp)
              · exact Or.inl ⟨lt_of_lt_of_le hemit (min_le_right _ _), rfl⟩
              · exact Or.inr hp
            · rintro (⟨-, rfl⟩ | hp)
              · exact Or.inl rfl
              · exact Or.inr hp
          · rw [if_neg (by rw [hmax, ← hminEq]; exact hemit)]
            simp only [List.nil_append]
            rw [hiff]
            constructor
            · intro hp
              exact Or.inr hp
            · rintro (⟨hov, -⟩ | hp)
              · exact absurd hov hemit
              · exact hp

theorem overlapPairs_comm {A B : List TimeOfDay} {p : Nat × Nat}
    (h : overlapPairs A B p) : overlapPairs B A p := by
  obtain ⟨a, ha, b, hb, hov, rfl⟩ := h
  refine ⟨b, hb, a, ha, by omega, by rw [Nat.max_comm, Nat.min_comm]⟩

/-- C8: intersectRanges is commutative as sets of denoted pairs: for
valid pair-sequences both orders succeed and their outputs contain the
same (start, end) minute pairs. -/
theorem c8_intersect_commutative (A B : List TimeOfDay)
    (hA : ValidPairSeq A) (hB : ValidPairSeq B) :
    ∃ ra rb, Multi.intersectRanges A B = .ok ra
      ∧ Multi.intersectRanges B A = .ok rb
      ∧ ∀ p, p ∈ minutePairs ra ↔ p ∈ minutePairs rb := by
  obtain ⟨ra, hra, hiffa⟩ :=
    intersectGo_spec (A.length + B.length + 1) (by omega) hA hB
  obtain ⟨rb, hrb, hiffb⟩ :=
    intersectGo_spec (B.length + A.length + 1) (by omega) hB hA
  refine ⟨ra, rb, hra, hrb, fun p => ?_⟩
  rw [hiffa, hiffb]
  exact ⟨overlapPairs_comm, overlapPairs_comm⟩

/-- Closed instance of the C8 statement at two concrete valid
pair-sequences. -/
theorem c8_intersect_commutative_witness :
    ∃ ra rb, Multi.intersectRanges [⟨9, 0⟩, ⟨12, 0⟩] [⟨10, 0⟩, ⟨11, 0⟩] = .ok ra
      ∧ Multi.intersectRanges [⟨10, 0⟩, ⟨11, 0⟩] [⟨9, 0⟩, ⟨12, 0⟩] = .ok rb
      ∧ ∀ p, p ∈ minutePairs ra ↔ p ∈ minutePairs rb :=
  c8_intersect_commutative [⟨9, 0⟩, ⟨12, 0⟩] [⟨10, 0⟩, ⟨11, 0⟩]
    ⟨by decide, by simp [minutePairs, Multi.toPairs], by decide⟩
    ⟨by decide, by simp [minutePairs, Multi.toPairs], by decide⟩
